import Mathlib

/-!
Shallow embedding of `src/trackmania_rl/buffer_utilities.py`: the batch
collation pipeline (`fast_collate_cpu`, `buffer_collate_function`), the
horizontal-flip augmentation, and the `PrioritizedSampler` class with its
two segment trees.

Numeric conventions: numpy integer arrays are embedded as `ℤ`, reward and
discount arrays as `ℚ` (exact rationals standing for the float payloads),
and the sampler's priority arithmetic as `ℝ` with `Real.rpow` standing for
`np.power`. Randomness (`np.random.randint`, `np.random.uniform`,
per-record flip flags) is passed in explicitly as data, following the
design note of the spec that augmentation draws should be plain inputs.

The segment trees (`SumSegmentTreeFp32` etc.) come from `torchrl._torchrl`
and are not part of the repository sources; their aggregates and the
inverse-CDF scan are modelled from the spec, section 4.1, as noted on each
definition. Likewise the `misc` configuration module is absent from the
sources; where a claim needs one of its tables it is modelled from the
spec and documented as such.
-/

/-- Error raised by the collation pipeline. The only failure the source
code can actually produce is a Python `IndexError`: `fast_collate_cpu`
indexes `batch[0]`, and `np.take_along_axis` rejects indices outside
`[-len, len)`. -/
inductive CollateError where
  | indexError
  deriving DecidableEq, Repr

/-- One experience record as consumed by `buffer_collate_function`: the
integer fields collated from the batch (`n_steps`, `terminal_actions`) and
the per-horizon reward and discount arrays. The image and feature payloads
are opaque to the temporal computation and are modelled separately for the
augmentation claims. -/
structure ExpRecord where
  nSteps : ℤ
  terminalActions : ℤ
  rewards : List ℚ
  gammas : List ℚ
  deriving DecidableEq, Repr

/-- Numpy-style element lookup used by `np.take_along_axis` in
`buffer_collate_function`: a non-negative index within bounds reads
directly, a negative index with `-len ≤ i < 0` wraps around to `len + i`,
and anything else raises `IndexError`. -/
def npGet (l : List ℚ) (i : ℤ) : Except CollateError ℚ :=
  if 0 ≤ i ∧ i < l.length then .ok (l.getD i.toNat 0)
  else if -(l.length : ℤ) ≤ i ∧ i < 0 then .ok (l.getD ((l.length : ℤ) + i).toNat 0)
  else .error .indexError

/-- Effective multi-step horizon computed at line 61 of
`buffer_utilities.py`: `possibly_reduced_n_steps = n_steps -
(t_cur + n_steps - duration).clip(min=0)`. -/
def effectiveSteps (duration nSteps tcur : ℤ) : ℤ :=
  nSteps - max 0 (tcur + nSteps - duration)

/-- Terminal flag computed at lines 63-65 of `buffer_utilities.py`:
`(possibly_reduced_n_steps >= terminal_actions) | (t_next >= duration)`. -/
def isTerminalFlag (duration nSteps terminalActions tcur : ℤ) : Bool :=
  decide (terminalActions ≤ effectiveSteps duration nSteps tcur) || decide (duration ≤ tcur + nSteps)

/-- Per-record core of `buffer_collate_function` (lines 53-70): given the
drawn temporal offset `tcur`, compute the effective horizon and terminal
flag, gather the discount and reward at index `effective_steps - 1` with
numpy indexing semantics, and zero the discount on terminal records.
Returns `(reward, gamma, terminal)`. -/
def collateRecord (duration tcur : ℤ) (r : ExpRecord) : Except CollateError (ℚ × ℚ × Bool) := do
  let eff := effectiveSteps duration r.nSteps tcur
  let term := isTerminalFlag duration r.nSteps r.terminalActions tcur
  let g ← npGet r.gammas (eff - 1)
  let rew ← npGet r.rewards (eff - 1)
  return (rew, if term then 0 else g, term)

/-- Embedding of `fast_collate_cpu` (lines 17-26): the function reads
`batch[0]` to discover shape and dtype, so an empty batch raises
`IndexError`; otherwise it stacks one attribute of every record. -/
def fastCollate {A B : Type} (batch : List A) (f : A → B) : Except CollateError (List B) :=
  match batch with
  | [] => .error .indexError
  | b => .ok (b.map f)

/-- Temporal part of `buffer_collate_function` at batch level: collate the
attributes (failing on an empty batch exactly as `fast_collate_cpu` does),
then process each record with its drawn temporal offset. -/
def bufferCollate (duration : ℤ) (tcurs : List ℤ) (batch : List ExpRecord) :
    Except CollateError (List (ℚ × ℚ × Bool)) :=
  match fastCollate batch (fun r => r.nSteps) with
  | .error e => .error e
  | .ok _ => (tcurs.zip batch).mapM (fun p => collateRecord duration p.1 p.2)

/-- Action permutation table from line 129 of `buffer_utilities.py`:
`action_flipped = [0, 2, 1, 3, 5, 4, 6, 8, 7, 9, 11, 10]`. -/
def actionFlipTable : List ℕ := [0, 2, 1, 3, 5, 4, 6, 8, 7, 9, 11, 10]

/-- Remap of one action id through the table, as done by `torch.gather`
on line 130. Action ids are in `[0, 12)`. -/
def flipAction (a : ℕ) : ℕ := actionFlipTable.getD a a

/-- Modelled from the spec: the feature-vector half of the horizontal
flip, `float_inputs_horizontal_symmetry` (lines 134-140). The index tables
`misc.flip_indices_floats_before_swap`, `misc.flip_indices_floats_after_swap`
and `misc.indices_floats_sign_inversion` live in the absent `misc` module,
so the swap is modelled as an index map `f` (reading position `i` from
position `f i`, which covers the simultaneous fancy-indexing assignment)
and the sign inversion as a list `signs` of indices whose entries are
negated afterwards. The feature vector is a function from indices. -/
def featureFlip (f : ℕ → ℕ) (signs : List ℕ) (v : ℕ → ℚ) : ℕ → ℚ :=
  fun i => if i ∈ signs then -(v (f i)) else v (f i)

/-- Image mirroring `torch.flip(img, dims=(-1,))` from lines 122-125: each
row of the image is reversed along the last (width) dimension. -/
def imageFlip (img : List (List ℚ)) : List (List ℚ) := img.map List.reverse

/-- Conditional application of one augmentation according to a per-record
flip flag, as `torch.where(use_horizontal_flip, transformed, original)`
does on lines 122-143. -/
def flipWhere {A : Type} (flag : Bool) (t : A → A) (x : A) : A :=
  if flag then t x else x

/-- Concrete 0-1 index swap used to instantiate the modelled feature
permutation on a two-feature layout. -/
def swap01 (i : ℕ) : ℕ := if i = 0 then 1 else if i = 1 then 0 else i

/-- Error conditions of `PrioritizedSampler.sample` (lines 215-223): the
empty-storage check raises before anything else, and a non-positive sum or
minimum aggregate raises the degenerate-priorities condition of the spec's
error taxonomy (the source uses two `RuntimeError` messages,
`negative p_sum` and `negative p_min`, for the latter). -/
inductive SampleError where
  | emptyPool
  | degeneratePriorities
  deriving DecidableEq, Repr

/-- State of a `PrioritizedSampler`: the hyperparameters `_alpha`, `_beta`,
`_eps`, the running `_max_priority`, and the leaf arrays of `_sum_tree` and
`_min_tree`. Priorities are embedded as real numbers; `np.power` becomes
`Real.rpow`. -/
structure Sampler where
  alpha : ℝ
  beta : ℝ
  eps : ℝ
  maxPriority : ℝ
  sumTree : List ℝ
  minTree : List ℝ

/-- Modelled from the spec: the sum tree's range query
`_sum_tree.query(0, n)` (the `SumSegmentTree` class lives in
`torchrl._torchrl`, outside the sources); per spec section 4.1 it is the
sum aggregate of the first `n` leaves. -/
def treeSum (l : List ℝ) (n : ℕ) : ℝ := (l.take n).sum

/-- Minimum of a list of leaves, with the first element as the fold seed.
Only ever consulted on a non-empty range because `sample` raises on empty
storage first. -/
def listMin : List ℝ → ℝ
  | [] => 0
  | x :: xs => xs.foldl min x

/-- Modelled from the spec: the min tree's range query
`_min_tree.query(0, n)` (from `torchrl._torchrl`, outside the sources);
per spec section 4.1 it is the min aggregate of the first `n` leaves. -/
def treeMin (l : List ℝ) (n : ℕ) : ℝ := listMin (l.take n)

/-- Modelled from the spec: `_sum_tree.scan_lower_bound(mass)` (from
`torchrl._torchrl`, outside the sources). Per spec section 4.1 the
inverse-CDF lookup returns the smallest leaf index whose inclusive prefix
sum exceeds the mass, and an index past the end when the mass is at or
beyond the total (which the caller clamps). -/
noncomputable def scanLowerBound : List ℝ → ℝ → ℕ
  | [], _ => 0
  | p :: rest, m => if m < p then 0 else 1 + scanLowerBound rest (m - p)

/-- Embedding of `PrioritizedSampler.sample` (lines 215-243) with the
batch of uniform masses passed in as data: raise on empty storage, query
both aggregates over `[0, n)` and raise if either is non-positive, map
each mass through the inverse-CDF scan clamped to `n - 1`, and attach to
each index the importance weight `(p_i / p_min) ^ (-beta)` where `p_i` is
the stored priority read back from the sum tree. -/
noncomputable def sample (s : Sampler) (n : ℕ) (masses : List ℝ) :
    Except SampleError (List ℕ × List ℝ) :=
  if n = 0 then .error .emptyPool
  else if treeSum s.sumTree n ≤ 0 then .error .degeneratePriorities
  else if treeMin s.minTree n ≤ 0 then .error .degeneratePriorities
  else
    .ok (masses.map (fun m => min (scanLowerBound s.sumTree m) (n - 1)),
         (masses.map (fun m => min (scanLowerBound s.sumTree m) (n - 1))).map
           (fun i => (s.sumTree.getD i 0 / treeMin s.minTree n) ^ (-s.beta)))

/-- Embedding of the `default_priority` property (lines 211-213):
`(self._max_priority + self._eps) ** self._alpha`. -/
noncomputable def defaultPriority (s : Sampler) : ℝ := (s.maxPriority + s.eps) ^ s.alpha

/-- Embedding of `PrioritizedSampler.update_priority` (lines 262-286) for
one index: grow `_max_priority` to the raw priority, then write
`(priority + eps) ** alpha` into both trees at the index. -/
noncomputable def updatePriority (s : Sampler) (i : ℕ) (p : ℝ) : Sampler :=
  { s with
    maxPriority := max s.maxPriority p
    sumTree := s.sumTree.set i ((p + s.eps) ^ s.alpha)
    minTree := s.minTree.set i ((p + s.eps) ^ s.alpha) }

/-- Embedding of `_add_or_extend` as called by `add`/`extend`
(lines 245-260): write `default_priority` into both trees, leaving
`_max_priority` untouched. -/
noncomputable def addOrExtend (s : Sampler) (i : ℕ) : Sampler :=
  { s with
    sumTree := s.sumTree.set i (defaultPriority s)
    minTree := s.minTree.set i (defaultPriority s) }

/-- Embedding of `mark_update` (lines 288-289):
`self.update_priority(index, self.default_priority)`. -/
noncomputable def markUpdate (s : Sampler) (i : ℕ) : Sampler :=
  updatePriority s i (defaultPriority s)

/-- Sequential application of scalar `update_priority` calls, used to
state the rescaling claim over a whole update history. -/
noncomputable def applyUpdates (s : Sampler) (us : List (ℕ × ℝ)) : Sampler :=
  us.foldl (fun t u => updatePriority t u.1 u.2) s

/-- Error raised by a Python `dict.pop(key)` on an absent key, as happens
in `load_state_dict` when the snapshot's tree entries were already
removed by a previous restore. -/
inductive DictError where
  | keyError
  deriving DecidableEq, Repr

/-- Heap of segment-tree objects: a tree object is identified by its
position in this allocation list and holds its leaf array. The reference
indices capture Python object identity (aliasing). -/
abbrev TreeHeap := List (List ℝ)

/-- A `PrioritizedSampler` holding its two trees by reference into a
`TreeHeap`, used for the snapshot claims where object identity and
in-place dict mutation matter. -/
structure SamplerRef where
  alpha : ℝ
  beta : ℝ
  eps : ℝ
  maxPriority : ℝ
  sumRef : ℕ
  minRef : ℕ

/-- Python dict produced by `state_dict` (lines 291-299): the four scalar
entries plus the two tree entries; a tree entry becomes `none` once it has
been `pop`ped by `load_state_dict`. -/
structure StateDictRec where
  alpha : ℝ
  beta : ℝ
  eps : ℝ
  maxPriority : ℝ
  sumEntry : Option ℕ
  minEntry : Option ℕ

/-- Embedding of `state_dict` (lines 291-299): the scalars are copied into
the dict, and `deepcopy` allocates two fresh tree objects with the same
contents, so the dict's tree entries are new heap positions. Returns the
dict together with the grown heap. -/
def stateDict (s : SamplerRef) (h : TreeHeap) : StateDictRec × TreeHeap :=
  (⟨s.alpha, s.beta, s.eps, s.maxPriority, some h.length, some (h.length + 1)⟩,
   h ++ [h.getD s.sumRef [], h.getD s.minRef []])

/-- Embedding of `load_state_dict` (lines 301-307): the scalar entries are
read and left in place, while the tree entries are `pop`ped — removed from
the dict and installed into the sampler as the very same references,
without touching the heap (no copy). A missing tree entry raises
`KeyError` (`_sum_tree` is popped first in the source; the partial
mutation Python would leave behind on that failure path is not observable
through the `Except` result). -/
def loadStateDict (t : SamplerRef) (d : StateDictRec) :
    Except DictError (SamplerRef × StateDictRec) :=
  match d.sumEntry, d.minEntry with
  | some r1, some r2 =>
      .ok (⟨d.alpha, d.beta, d.eps, d.maxPriority, r1, r2⟩,
           ⟨d.alpha, d.beta, d.eps, d.maxPriority, none, none⟩)
  | _, _ => .error .keyError

/-- View of a by-reference sampler as a plain `Sampler` under a given
heap, so that the value-level `sample` and tree queries apply to it. -/
def derefSampler (h : TreeHeap) (s : SamplerRef) : Sampler :=
  ⟨s.alpha, s.beta, s.eps, s.maxPriority, h.getD s.sumRef [], h.getD s.minRef []⟩

theorem swap01_involutive : ∀ i, swap01 (swap01 i) = i := by
  intro i
  by_cases h0 : i = 0
  · simp [swap01, h0]
  · by_cases h1 : i = 1
    · simp [swap01, h1]
    · simp [swap01, h0, h1]

theorem swap01_mem_sign : ∀ i, i ∈ [2] ↔ swap01 i ∈ [2] := by
  intro i
  by_cases h0 : i = 0
  · simp [swap01, h0]
  · by_cases h1 : i = 1
    · simp [swap01, h1]
    · simp [swap01, h0, h1]

/-- C2: for every collated record, the effective horizon is
`n_steps - max 0 (t_cur + n_steps - duration)`, the terminal flag is
`effective_steps ≥ terminal_actions` or `t_cur + n_steps ≥ duration`, and
collation returns the reward at `effective_steps - 1`, together with the
discount at `effective_steps - 1` forced to `0` whenever the flag holds
(hypotheses: what is drawn and stored keeps the gather index in bounds). -/
theorem collateRecord_spec (duration tcur : ℤ) (r : ExpRecord)
    (heff1 : 1 ≤ effectiveSteps duration r.nSteps tcur)
    (heffg : effectiveSteps duration r.nSteps tcur ≤ (r.gammas.length : ℤ))
    (heffr : effectiveSteps duration r.nSteps tcur ≤ (r.rewards.length : ℤ)) :
    effectiveSteps duration r.nSteps tcur = r.nSteps - max 0 (tcur + r.nSteps - duration) ∧
    (isTerminalFlag duration r.nSteps r.terminalActions tcur = true ↔
      (r.terminalActions ≤ effectiveSteps duration r.nSteps tcur ∨ duration ≤ tcur + r.nSteps)) ∧
    collateRecord duration tcur r = .ok
      (r.rewards.getD (effectiveSteps duration r.nSteps tcur - 1).toNat 0,
       if isTerminalFlag duration r.nSteps r.terminalActions tcur then 0
       else r.gammas.getD (effectiveSteps duration r.nSteps tcur - 1).toNat 0,
       isTerminalFlag duration r.nSteps r.terminalActions tcur) := by
  refine ⟨rfl, by simp [isTerminalFlag], ?_⟩
  have hg : npGet r.gammas (effectiveSteps duration r.nSteps tcur - 1) =
      .ok (r.gammas.getD (effectiveSteps duration r.nSteps tcur - 1).toNat 0) := by
    rw [npGet, if_pos ⟨by omega, by omega⟩]
  have hr : npGet r.rewards (effectiveSteps duration r.nSteps tcur - 1) =
      .ok (r.rewards.getD (effectiveSteps duration r.nSteps tcur - 1).toNat 0) := by
    rw [npGet, if_pos ⟨by omega, by omega⟩]
  simp only [collateRecord]
  rw [hg, hr]
  rfl

/-- Witness for C2, instantiating the scenario of the claim: `n_steps = 5`,
`terminal_actions = 3`, `mini_race_duration = 10`, drawn `t_cur = 8` gives
`effective_steps = 2`, a true terminal flag, discount forced to `0`, and
reward `rewards[1] = 20`. -/
theorem collateRecord_spec_witness :
    1 ≤ effectiveSteps 10 5 8 ∧
    effectiveSteps 10 5 8 = 2 ∧
    isTerminalFlag 10 5 3 8 = true ∧
    collateRecord 10 8 ⟨5, 3, [10, 20, 30, 40, 50], [1/2, 1/4, 1/8, 1/16, 1/32]⟩ =
      .ok (20, 0, true) := by
  refine ⟨by decide, by decide, by decide, ?_⟩
  have h := (collateRecord_spec 10 8 ⟨5, 3, [10, 20, 30, 40, 50], [1/2, 1/4, 1/8, 1/16, 1/32]⟩
    (by decide) (by decide) (by decide)).2.2
  rw [h]
  rfl

/-- C7 counterexample: an empty batch is not a no-op; `fast_collate_cpu`
indexes `batch[0]`, so collation raises an index error and returns no
outputs at all. -/
theorem bufferCollate_empty_fails :
    bufferCollate 10 [] [] = .error .indexError ∧
    ∀ out : List (ℚ × ℚ × Bool), bufferCollate 10 [] [] ≠ .ok out := by
  refine ⟨rfl, ?_⟩
  intro out h
  rw [show bufferCollate 10 [] [] = .error .indexError from rfl] at h
  exact Except.noConfusion h

/-- C7 amended: calling the collation pipeline on an empty batch fails
with an index error (from `batch[0]` in `fast_collate_cpu`) for every
duration and every offset vector, instead of succeeding with empty
outputs. -/
theorem bufferCollate_empty_amended (duration : ℤ) (tcurs : List ℤ) :
    bufferCollate duration tcurs [] = .error .indexError ∧
    fastCollate ([] : List ExpRecord) (fun r => r.nSteps) = .error .indexError := by
  exact ⟨rfl, rfl⟩

/-- C8 counterexample: a record with `n_steps = 0` is not rejected; the
gather index `effective_steps - 1 = -1` silently wraps to the last horizon
entry under numpy indexing, and the collation call succeeds. Here the
batch `[⟨0, 1, [5, 7], [1/2, 1/4]⟩]` with drawn offset `0` and duration
`10` returns reward `7 = rewards[-1]` and discount `1/4 = gammas[-1]`. -/
theorem collate_zero_nsteps_not_rejected :
    bufferCollate 10 [0] [⟨0, 1, [5, 7], [1/2, 1/4]⟩] = .ok [(7, 1/4, false)] ∧
    ∀ e : CollateError, bufferCollate 10 [0] [⟨0, 1, [5, 7], [1/2, 1/4]⟩] ≠ .error e := by
  refine ⟨rfl, ?_⟩
  intro e h
  rw [show bufferCollate 10 [0] [⟨0, 1, [5, 7], [1/2, 1/4]⟩] = .ok [(7, 1/4, false)] from rfl] at h
  exact Except.noConfusion h

/-- C8 amended: collation performs no validation of `n_steps`. For a
record with `n_steps = 0` and a drawn offset with `0 ≤ t_cur ≤ duration`,
the effective horizon is `0`, the gather index is `-1`, and numpy's
negative indexing silently wraps it to the final array entry, so the call
succeeds with `reward = rewards[len - 1]`; no error condition exists. -/
theorem collate_zero_nsteps_wraps (duration tcur : ℤ) (r : ExpRecord)
    (h0 : r.nSteps = 0) (ht : 0 ≤ tcur) (htD : tcur ≤ duration)
    (hg : r.gammas ≠ []) (hr : r.rewards ≠ []) :
    effectiveSteps duration r.nSteps tcur = 0 ∧
    collateRecord duration tcur r = .ok
      (r.rewards.getD (r.rewards.length - 1) 0,
       if isTerminalFlag duration r.nSteps r.terminalActions tcur then 0
       else r.gammas.getD (r.gammas.length - 1) 0,
       isTerminalFlag duration r.nSteps r.terminalActions tcur) := by
  have heff : effectiveSteps duration r.nSteps tcur = 0 := by
    simp only [effectiveSteps, h0]
    omega
  have hglen : 1 ≤ r.gammas.length := List.length_pos.mpr hg
  have hrlen : 1 ≤ r.rewards.length := List.length_pos.mpr hr
  refine ⟨heff, ?_⟩
  have hwrapg : npGet r.gammas (effectiveSteps duration r.nSteps tcur - 1) =
      .ok (r.gammas.getD (r.gammas.length - 1) 0) := by
    rw [heff]
    rw [npGet, if_neg (by omega), if_pos ⟨by omega, by omega⟩]
    congr 1
    congr 1
    omega
  have hwrapr : npGet r.rewards (effectiveSteps duration r.nSteps tcur - 1) =
      .ok (r.rewards.getD (r.rewards.length - 1) 0) := by
    rw [heff]
    rw [npGet, if_neg (by omega), if_pos ⟨by omega, by omega⟩]
    congr 1
    congr 1
    omega
  simp only [collateRecord]
  rw [hwrapg, hwrapr]
  rfl

/-- Witness for the amended C8: the concrete record `⟨0, 1, [5, 7],
[1/2, 1/4]⟩` with offset `0` and duration `10` collates successfully to
the wrapped-around last entries. -/
theorem collate_zero_nsteps_wraps_witness :
    (0 : ℤ) ≤ 0 ∧ (0 : ℤ) ≤ 10 ∧
    collateRecord 10 0 ⟨0, 1, [5, 7], [1/2, 1/4]⟩ = .ok (7, 1/4, false) := by
  refine ⟨le_refl 0, by decide, ?_⟩
  have h := (collate_zero_nsteps_wraps 10 0 ⟨0, 1, [5, 7], [1/2, 1/4]⟩
    rfl (le_refl 0) (by decide) (by decide) (by decide)).2
  rw [h]
  rfl

/-- C4: the horizontal-flip augmentation applied twice with the same
per-record flip flag is the identity. The action remap through
`action_flipped` composes with itself to the identity on all twelve action
ids (in particular `1 ↦ 2 ↦ 1` and `3 ↦ 3`); the feature transform (index
swap plus sign negation) composes to the identity whenever the swap map is
involutive and preserves the set of sign-negated indices, as the spec's
designated left/right pairs and signed scalar indices do; and mirroring an
image twice restores it exactly. -/
theorem horizontal_flip_involution (flag : Bool) (f : ℕ → ℕ) (signs : List ℕ)
    (hf : ∀ i, f (f i) = i) (hsigns : ∀ i, i ∈ signs ↔ f i ∈ signs)
    (v : ℕ → ℚ) (img : List (List ℚ)) (a : ℕ) (ha : a < 12) :
    flipWhere flag flipAction (flipWhere flag flipAction a) = a ∧
    flipWhere flag (featureFlip f signs) (flipWhere flag (featureFlip f signs) v) = v ∧
    flipWhere flag imageFlip (flipWhere flag imageFlip img) = img ∧
    flipAction 1 = 2 ∧ flipAction 2 = 1 ∧ flipAction 3 = 3 := by
  have haction : ∀ b < 12, flipAction (flipAction b) = b := by decide
  cases flag with
  | false => exact ⟨rfl, rfl, rfl, by decide, by decide, by decide⟩
  | true =>
    refine ⟨haction a ha, ?_, ?_, by decide, by decide, by decide⟩
    · funext i
      by_cases hi : i ∈ signs
      · have hfi : f i ∈ signs := (hsigns i).mp hi
        simp [flipWhere, featureFlip, hi, hfi, hf]
      · have hfi : f i ∉ signs := fun hc => hi ((hsigns i).mpr hc)
        simp [flipWhere, featureFlip, hi, hfi, hf]
    · simp [flipWhere, imageFlip, List.map_map, Function.comp_def]

/-- Witness for C4 at a concrete input: flag `true`, the 0-1 swap with
sign index `2`, the feature vector `i ↦ i`, a concrete 2×2 image, and
action id `1`. -/
theorem horizontal_flip_involution_witness :
    (1 : ℕ) < 12 ∧
    flipWhere true flipAction (flipWhere true flipAction 1) = 1 ∧
    flipWhere true (featureFlip swap01 [2]) (flipWhere true (featureFlip swap01 [2]) (fun i : ℕ => (i : ℚ))) = (fun i : ℕ => (i : ℚ)) ∧
    flipWhere true imageFlip (flipWhere true imageFlip [[1, 2], [3, 4]]) = [[1, 2], [3, 4]] ∧
    flipAction 1 = 2 ∧ flipAction 2 = 1 ∧ flipAction 3 = 3 := by
  have h := horizontal_flip_involution true swap01 [2] swap01_involutive swap01_mem_sign
    (fun i : ℕ => (i : ℚ)) [[1, 2], [3, 4]] 1 (by decide)
  exact ⟨by decide, h.1, h.2.1, h.2.2.1, h.2.2.2.1, h.2.2.2.2.1, h.2.2.2.2.2⟩

theorem getD_set_self (l : List ℝ) (i : ℕ) (a : ℝ) (h : i < l.length) :
    (l.set i a).getD i 0 = a := by
  simp [List.getD, List.getElem?_set_self, h]

theorem getD_nonneg (l : List ℝ) (i : ℕ) (hleaf : ∀ p ∈ l, 0 ≤ p) :
    0 ≤ l.getD i 0 := by
  by_cases hi : i < l.length
  · rw [List.getD_eq_getElem l 0 hi]
    exact hleaf _ (List.getElem_mem hi)
  · rw [List.getD_eq_default l 0 (le_of_not_lt hi)]

/-- C1: with non-empty storage and positive sum and min aggregates,
`sample` succeeds and returns one index per drawn mass — each the
inverse-CDF lookup of its mass clamped to at most `n - 1`, hence inside
`[0, n)` and a fortiori inside `[0, capacity)` — together with one weight
per mass, each weight being `(p_i / p_min) ^ (-beta)` for the stored
priority `p_i` of its index, and each weight non-negative (in this
real-valued embedding every weight is automatically a finite real). -/
theorem sample_spec (s : Sampler) (n : ℕ) (masses : List ℝ)
    (hn : 0 < n)
    (hsum : 0 < treeSum s.sumTree n)
    (hmin : 0 < treeMin s.minTree n)
    (hleaf : ∀ p ∈ s.sumTree, 0 ≤ p)
    (hmass : ∀ m ∈ masses, 0 ≤ m ∧ m < treeSum s.sumTree n) :
    sample s n masses =
      .ok (masses.map (fun m => min (scanLowerBound s.sumTree m) (n - 1)),
           (masses.map (fun m => min (scanLowerBound s.sumTree m) (n - 1))).map
             (fun i => (s.sumTree.getD i 0 / treeMin s.minTree n) ^ (-s.beta))) ∧
    (masses.map (fun m => min (scanLowerBound s.sumTree m) (n - 1))).length = masses.length ∧
    ((masses.map (fun m => min (scanLowerBound s.sumTree m) (n - 1))).map
      (fun i => (s.sumTree.getD i 0 / treeMin s.minTree n) ^ (-s.beta))).length = masses.length ∧
    (∀ i ∈ masses.map (fun m => min (scanLowerBound s.sumTree m) (n - 1)), i ≤ n - 1 ∧ i < n) ∧
    (∀ w ∈ (masses.map (fun m => min (scanLowerBound s.sumTree m) (n - 1))).map
      (fun i => (s.sumTree.getD i 0 / treeMin s.minTree n) ^ (-s.beta)), 0 ≤ w) := by
  refine ⟨?_, by simp, by simp, ?_, ?_⟩
  · rw [sample, if_neg hn.ne', if_neg (not_le.mpr hsum), if_neg (not_le.mpr hmin)]
  · intro i hi
    rcases List.mem_map.mp hi with ⟨m, _, rfl⟩
    exact ⟨min_le_right _ _,
      lt_of_le_of_lt (min_le_right _ _) (Nat.sub_lt hn one_pos)⟩
  · intro w hw
    rcases List.mem_map.mp hw with ⟨i, _, rfl⟩
    exact Real.rpow_nonneg (div_nonneg (getD_nonneg _ _ hleaf) hmin.le) _

/-- Witness for C1: sampler with leaves `[2, 4]`, `beta = 1`, two storage
slots, one mass `3`: the lookup yields index `1` and weight
`(4 / 2) ^ (-1) = 1/2`. -/
theorem sample_spec_witness :
    (0 : ℕ) < 2 ∧
    0 < treeSum (⟨1, 1, 1, 1, [2, 4], [2, 4]⟩ : Sampler).sumTree 2 ∧
    0 < treeMin (⟨1, 1, 1, 1, [2, 4], [2, 4]⟩ : Sampler).minTree 2 ∧
    sample ⟨1, 1, 1, 1, [2, 4], [2, 4]⟩ 2 [3] = .ok ([1], [1 / 2]) := by
  have hsum : (0 : ℝ) < treeSum [2, 4] 2 := by norm_num [treeSum]
  have hmin : (0 : ℝ) < treeMin [2, 4] 2 := by norm_num [treeMin, listMin]
  have h := (sample_spec ⟨1, 1, 1, 1, [2, 4], [2, 4]⟩ 2 [3] (by norm_num) hsum hmin
    (by intro p hp; simp at hp; rcases hp with h | h <;> simp [h])
    (by intro m hm; simp at hm; subst hm; constructor <;> norm_num [treeSum])).1
  refine ⟨by norm_num, hsum, hmin, ?_⟩
  rw [h]
  have hscan : scanLowerBound [2, 4] 3 = 1 := by norm_num [scanLowerBound]
  have hmin2 : treeMin (⟨1, 1, 1, 1, [2, 4], [2, 4]⟩ : Sampler).minTree 2 = 2 := by
    norm_num [treeMin, listMin]
  simp only [List.map, hscan, hmin2]
  norm_num [Real.rpow_neg_one]

/-- C3: `sample` fails with the empty-pool condition exactly when the
storage holds no records (`len(storage) == 0`, the reading under which the
claim's "zero total mass (no inserted records)" is consistent with its
own non-empty clause), fails with the degenerate-priorities condition —
for a non-empty pool — exactly when the sum or the min aggregate over
`[0, n)` is non-positive, and on every failure returns no indices or
weights. -/
theorem sample_failure_spec (s : Sampler) (n : ℕ) (masses : List ℝ) :
    (sample s n masses = .error .emptyPool ↔ n = 0) ∧
    (0 < n → (sample s n masses = .error .degeneratePriorities ↔
      (treeSum s.sumTree n ≤ 0 ∨ treeMin s.minTree n ≤ 0))) ∧
    (∀ e out, sample s n masses = .error e → sample s n masses ≠ .ok out) := by
  refine ⟨?_, ?_, ?_⟩
  · by_cases hn : n = 0
    · rw [sample, if_pos hn]
      simp [hn]
    · rw [sample, if_neg hn]
      split_ifs <;> simp [hn]
  · intro hpos
    rw [sample, if_neg hpos.ne']
    split_ifs with hs1 hs2
    · simp [hs1]
    · simp [hs2]
    · simp [hs1, hs2]
  · intro e out he hok
    rw [he] at hok
    exact Except.noConfusion hok

/-- Witness for C3: an empty pool raises the empty-pool condition, and a
non-empty pool whose leaves sum to zero raises the degenerate-priorities
condition. -/
theorem sample_failure_spec_witness :
    sample ⟨1, 1, 1, 1, [], []⟩ 0 [] = .error .emptyPool ∧
    (0 : ℕ) < 2 ∧
    sample ⟨1, 1, 1, 1, [1, -1], [1, -1]⟩ 2 [] = .error .degeneratePriorities := by
  refine ⟨(sample_failure_spec ⟨1, 1, 1, 1, [], []⟩ 0 []).1.mpr rfl, by norm_num, ?_⟩
  exact ((sample_failure_spec ⟨1, 1, 1, 1, [1, -1], [1, -1]⟩ 2 []).2.1 (by norm_num)).mpr
    (Or.inl (by norm_num [treeSum]))

/-- C9: `mark_update` routes the already-exponentiated `default_priority`
back through `update_priority`, so it stores the twice-exponentiated value
`((m + eps) ^ alpha + eps) ^ alpha` in both trees and raises the running
maximum to `max m ((m + eps) ^ alpha)`, whereas `add`/`extend` store
`(m + eps) ^ alpha` once and leave the maximum untouched; whenever
`(m + eps) ^ alpha > m`, a `mark_update` call strictly increases the
running maximum. -/
theorem markUpdate_spec (s : Sampler) (i : ℕ)
    (hs : i < s.sumTree.length) (hm : i < s.minTree.length) :
    ((markUpdate s i).sumTree.getD i 0 =
      ((s.maxPriority + s.eps) ^ s.alpha + s.eps) ^ s.alpha) ∧
    ((markUpdate s i).minTree.getD i 0 =
      ((s.maxPriority + s.eps) ^ s.alpha + s.eps) ^ s.alpha) ∧
    ((markUpdate s i).maxPriority = max s.maxPriority ((s.maxPriority + s.eps) ^ s.alpha)) ∧
    ((addOrExtend s i).sumTree.getD i 0 = (s.maxPriority + s.eps) ^ s.alpha) ∧
    ((addOrExtend s i).minTree.getD i 0 = (s.maxPriority + s.eps) ^ s.alpha) ∧
    ((addOrExtend s i).maxPriority = s.maxPriority) ∧
    (s.maxPriority < (s.maxPriority + s.eps) ^ s.alpha →
      s.maxPriority < (markUpdate s i).maxPriority) := by
  refine ⟨?_, ?_, rfl, ?_, ?_, rfl, ?_⟩
  · exact getD_set_self _ _ _ hs
  · exact getD_set_self _ _ _ hm
  · exact getD_set_self _ _ _ hs
  · exact getD_set_self _ _ _ hm
  · intro hlt
    exact lt_of_lt_of_le hlt (le_max_right _ _)

/-- Witness for C9 with `alpha = 1`, `eps = 1`, current maximum `1` and a
one-slot tree: `mark_update` stores `((1+1)^1 + 1)^1 = 3` and raises the
maximum to `(1+1)^1 = 2 > 1`, while `add` would store `2` and keep the
maximum at `1`. -/
theorem markUpdate_spec_witness :
    (0 : ℕ) < 1 ∧
    (markUpdate ⟨1, 0, 1, 1, [0], [0]⟩ 0).sumTree.getD 0 0 = 3 ∧
    (markUpdate ⟨1, 0, 1, 1, [0], [0]⟩ 0).maxPriority = 2 ∧
    (addOrExtend ⟨1, 0, 1, 1, [0], [0]⟩ 0).sumTree.getD 0 0 = 2 ∧
    (addOrExtend ⟨1, 0, 1, 1, [0], [0]⟩ 0).maxPriority = 1 ∧
    (1 : ℝ) < (markUpdate ⟨1, 0, 1, 1, [0], [0]⟩ 0).maxPriority := by
  have h := markUpdate_spec ⟨1, 0, 1, 1, [0], [0]⟩ 0 (by norm_num) (by norm_num)
  have e1 : ((1 : ℝ) + 1) ^ (1 : ℝ) = 2 := by rw [Real.rpow_one]; norm_num
  refine ⟨by norm_num, ?_, ?_, ?_, h.2.2.2.2.2.1, ?_⟩
  · rw [h.1]
    show (((1 : ℝ) + 1) ^ (1 : ℝ) + 1) ^ (1 : ℝ) = 3
    rw [Real.rpow_one, Real.rpow_one]
    norm_num
  · rw [h.2.2.1]
    show max (1 : ℝ) (((1 : ℝ) + 1) ^ (1 : ℝ)) = 2
    rw [e1]
    norm_num
  · rw [h.2.2.2.1]
    show ((1 : ℝ) + 1) ^ (1 : ℝ) = 2
    exact e1
  · refine h.2.2.2.2.2.2 ?_
    show (1 : ℝ) < ((1 : ℝ) + 1) ^ (1 : ℝ)
    rw [e1]
    norm_num

theorem heapGetD_append_first (h : TreeHeap) (a b : List ℝ) :
    (h ++ [a, b]).getD h.length [] = a := by
  rw [List.getD_eq_getElem?_getD, List.getElem?_append_right (le_refl _)]
  simp

theorem heapGetD_append_second (h : TreeHeap) (a b : List ℝ) :
    (h ++ [a, b]).getD (h.length + 1) [] = b := by
  rw [List.getD_eq_getElem?_getD, List.getElem?_append_right (by omega)]
  simp

/-- C6: restoring from a snapshot succeeds and yields a sampler whose
dereferenced state coincides with the pre-snapshot sampler's, so every
subsequent `sample` call and both tree queries give identical results for
the same draws; the snapshot itself carries `alpha`, `beta`, `eps`,
`max_priority` and deep copies of both trees' contents. -/
theorem snapshot_restore_roundtrip (s t : SamplerRef) (h : TreeHeap) (n : ℕ)
    (masses : List ℝ) :
    loadStateDict t (stateDict s h).1 =
      .ok (⟨s.alpha, s.beta, s.eps, s.maxPriority, h.length, h.length + 1⟩,
           ⟨s.alpha, s.beta, s.eps, s.maxPriority, none, none⟩) ∧
    derefSampler (stateDict s h).2
        ⟨s.alpha, s.beta, s.eps, s.maxPriority, h.length, h.length + 1⟩ =
      derefSampler h s ∧
    sample (derefSampler (stateDict s h).2
        ⟨s.alpha, s.beta, s.eps, s.maxPriority, h.length, h.length + 1⟩) n masses =
      sample (derefSampler h s) n masses ∧
    treeSum (derefSampler (stateDict s h).2
        ⟨s.alpha, s.beta, s.eps, s.maxPriority, h.length, h.length + 1⟩).sumTree n =
      treeSum (derefSampler h s).sumTree n ∧
    treeMin (derefSampler (stateDict s h).2
        ⟨s.alpha, s.beta, s.eps, s.maxPriority, h.length, h.length + 1⟩).minTree n =
      treeMin (derefSampler h s).minTree n ∧
    (stateDict s h).1.alpha = s.alpha ∧ (stateDict s h).1.beta = s.beta ∧
    (stateDict s h).1.eps = s.eps ∧ (stateDict s h).1.maxPriority = s.maxPriority ∧
    (stateDict s h).2.getD h.length [] = h.getD s.sumRef [] ∧
    (stateDict s h).2.getD (h.length + 1) [] = h.getD s.minRef [] := by
  have hderef : derefSampler (stateDict s h).2
      ⟨s.alpha, s.beta, s.eps, s.maxPriority, h.length, h.length + 1⟩ =
      derefSampler h s := by
    simp only [derefSampler, stateDict]
    rw [heapGetD_append_first, heapGetD_append_second]
  refine ⟨rfl, hderef, by rw [hderef], by rw [hderef], by rw [hderef],
    rfl, rfl, rfl, rfl, ?_, ?_⟩
  · exact heapGetD_append_first h _ _
  · exact heapGetD_append_second h _ _

/-- C10: `load_state_dict` pops the two tree entries out of the snapshot
dict (the returned dict retains the scalar entries but has lost the tree
entries), installs those very references into the sampler without copying
and without any heap allocation, so a second restore from the same dict
raises `KeyError`, and any holder of the heap sees the restored sampler's
trees as exactly the objects the dict's references pointed to. -/
theorem loadStateDict_pops_entries (t t2 : SamplerRef) (d : StateDictRec) (r1 r2 : ℕ)
    (h0 : TreeHeap) (h1 : d.sumEntry = some r1) (h2 : d.minEntry = some r2) :
    loadStateDict t d =
      .ok (⟨d.alpha, d.beta, d.eps, d.maxPriority, r1, r2⟩,
           ⟨d.alpha, d.beta, d.eps, d.maxPriority, none, none⟩) ∧
    loadStateDict t2 ⟨d.alpha, d.beta, d.eps, d.maxPriority, none, none⟩ =
      .error .keyError ∧
    derefSampler h0 ⟨d.alpha, d.beta, d.eps, d.maxPriority, r1, r2⟩ =
      ⟨d.alpha, d.beta, d.eps, d.maxPriority, h0.getD r1 [], h0.getD r2 []⟩ := by
  refine ⟨?_, rfl, rfl⟩
  rw [loadStateDict, h1, h2]

/-- Witness for C10: a concrete dict with tree references `0` and `1`
against the heap `[[5], [6]]`: the first restore succeeds and shares the
two tree objects, the second restore from the popped dict fails. -/
theorem loadStateDict_pops_entries_witness :
    (⟨1, 2, 3, 4, some 0, some 1⟩ : StateDictRec).sumEntry = some 0 ∧
    (⟨1, 2, 3, 4, some 0, some 1⟩ : StateDictRec).minEntry = some 1 ∧
    loadStateDict ⟨0, 0, 0, 0, 0, 0⟩ ⟨1, 2, 3, 4, some 0, some 1⟩ =
      .ok (⟨1, 2, 3, 4, 0, 1⟩, ⟨1, 2, 3, 4, none, none⟩) ∧
    loadStateDict ⟨0, 0, 0, 0, 0, 0⟩ ⟨1, 2, 3, 4, none, none⟩ = .error .keyError ∧
    derefSampler [[5], [6]] ⟨1, 2, 3, 4, 0, 1⟩ = ⟨1, 2, 3, 4, [5], [6]⟩ := by
  have h := loadStateDict_pops_entries ⟨0, 0, 0, 0, 0, 0⟩ ⟨0, 0, 0, 0, 0, 0⟩
    ⟨1, 2, 3, 4, some 0, some 1⟩ 0 1 [[5], [6]] rfl rfl
  refine ⟨rfl, rfl, h.1, h.2.1, ?_⟩
  rw [h.2.2]
  rfl

/-- Evaluation of `sample` on a two-slot sampler whose leaves are
`[a, b]` with `0 < a ≤ b` and a single mass in `[a, a + b)`: the scan
lands on slot `1` and the weight is `(b / a) ^ (-beta)`. -/
theorem sample_two_leaf (a b m beta al ep mp : ℝ)
    (ha : 0 < a) (hab : a ≤ b) (hm : a ≤ m) (hmlt : m < a + b) :
    sample ⟨al, beta, ep, mp, [a, b], [a, b]⟩ 2 [m] =
      .ok ([1], [(b / a) ^ (-beta)]) := by
  have hsum : treeSum [a, b] 2 = a + b := by
    simp [treeSum]
  have hmin : treeMin [a, b] 2 = a := by
    simp only [treeMin, listMin, List.take]
    simp [min_eq_left hab]
  have hscan : scanLowerBound [a, b] m = 1 := by
    rw [scanLowerBound, if_neg (not_lt.mpr hm), scanLowerBound,
      if_pos (by linarith)]
  rw [sample]
  rw [if_neg (by norm_num)]
  rw [if_neg]
  · rw [if_neg]
    · simp only [List.map, hscan, hmin]
      norm_num
    · show ¬ treeMin [a, b] 2 ≤ 0
      rw [hmin]
      exact not_le.mpr ha
  · show ¬ treeSum [a, b] 2 ≤ 0
    rw [hsum]
    exact not_le.mpr (by linarith)

/-- C5 counterexample: with `eps = 1`, `alpha = 1`, `beta = 1`, raw
priorities `1` and `3` stored via `update_priority`, a pool of two slots
and the same drawn mass `3`, the importance weight of slot `1` is `1/2`;
after multiplying both raw priorities by `c = 2` the same draw returns
slot `1` again, but with weight `3/7 ≠ 1/2` — the `eps` offset breaks
the claimed invariance of the weights. -/
theorem rescaling_changes_weights :
    sample (updatePriority (updatePriority ⟨1, 1, 1, 1, [0, 0], [0, 0]⟩ 0 1) 1 3) 2 [3] =
      .ok ([1], [1 / 2]) ∧
    sample (updatePriority (updatePriority ⟨1, 1, 1, 1, [0, 0], [0, 0]⟩ 0 (2 * 1)) 1 (2 * 3)) 2 [3] =
      .ok ([1], [3 / 7]) ∧
    ((1 : ℝ) / 2) ≠ 3 / 7 := by
  have e1 : ∀ x : ℝ, x ^ (1 : ℝ) = x := fun x => Real.rpow_one x
  have hS1 : updatePriority (updatePriority ⟨1, 1, 1, 1, [0, 0], [0, 0]⟩ 0 1) 1 3 =
      ⟨1, 1, 1, 3, [2, 4], [2, 4]⟩ := by
    simp only [updatePriority, e1]
    norm_num [max_def]
  have hS2 : updatePriority (updatePriority ⟨1, 1, 1, 1, [0, 0], [0, 0]⟩ 0 (2 * 1)) 1 (2 * 3) =
      ⟨1, 1, 1, 6, [3, 7], [3, 7]⟩ := by
    simp only [updatePriority, e1]
    norm_num [max_def]
  refine ⟨?_, ?_, by norm_num⟩
  · rw [hS1, sample_two_leaf 2 4 3 1 1 1 3 (by norm_num) (by norm_num) (by norm_num) (by norm_num)]
    norm_num [Real.rpow_neg_one]
  · rw [hS2, sample_two_leaf 3 7 3 1 1 1 6 (by norm_num) (by norm_num) (by norm_num) (by norm_num)]
    norm_num [Real.rpow_neg_one]

theorem sum_map_mul (k : ℝ) : ∀ l : List ℝ, (l.map (fun x => k * x)).sum = k * l.sum
  | [] => by simp
  | x :: xs => by
    simp [sum_map_mul k xs, mul_add]

theorem treeSum_map_mul (k : ℝ) (l : List ℝ) (n : ℕ) :
    treeSum (l.map (fun x => k * x)) n = k * treeSum l n := by
  rw [treeSum, treeSum, ← List.map_take, sum_map_mul]

theorem foldl_min_map_mul (k : ℝ) (hk : 0 ≤ k) :
    ∀ (xs : List ℝ) (a : ℝ), (xs.map (fun x => k * x)).foldl min (k * a) = k * xs.foldl min a
  | [], a => by simp
  | x :: xs, a => by
    simp only [List.map, List.foldl]
    rw [← mul_min_of_nonneg _ _ hk, foldl_min_map_mul k hk xs (min a x)]

theorem listMin_map_mul (k : ℝ) (hk : 0 ≤ k) (l : List ℝ) :
    listMin (l.map (fun x => k * x)) = k * listMin l := by
  cases l with
  | nil => simp [listMin]
  | cons x xs =>
    simp only [List.map, listMin]
    exact foldl_min_map_mul k hk xs x

theorem treeMin_map_mul (k : ℝ) (hk : 0 ≤ k) (l : List ℝ) (n : ℕ) :
    treeMin (l.map (fun x => k * x)) n = k * treeMin l n := by
  rw [treeMin, treeMin, ← List.map_take, listMin_map_mul k hk]

theorem getD_map_mul (k : ℝ) (l : List ℝ) (i : ℕ) :
    (l.map (fun x => k * x)).getD i 0 = k * l.getD i 0 := by
  by_cases hi : i < l.length
  · rw [List.getD_eq_getElem _ 0 (by simpa using hi), List.getD_eq_getElem _ 0 hi]
    simp
  · rw [List.getD_eq_default _ 0 (by simpa using le_of_not_lt hi),
      List.getD_eq_default _ 0 (le_of_not_lt hi)]
    simp

theorem scanLowerBound_map_mul (k : ℝ) (hk : 0 < k) :
    ∀ (l : List ℝ) (m : ℝ),
      scanLowerBound (l.map (fun x => k * x)) (k * m) = scanLowerBound l m
  | [], m => by simp [scanLowerBound]
  | p :: rest, m => by
    simp only [List.map, scanLowerBound]
    by_cases h : m < p
    · rw [if_pos ((mul_lt_mul_left hk).mpr h), if_pos h]
    · rw [if_neg (fun hc => h ((mul_lt_mul_left hk).mp hc)), if_neg h, ← mul_sub,
        scanLowerBound_map_mul k hk rest (m - p)]

theorem nonpos_iff_of_pos_mul (k x : ℝ) (hk : 0 < k) : k * x ≤ 0 ↔ x ≤ 0 := by
  constructor
  · intro h
    by_contra hx
    nlinarith
  · intro h
    exact mul_nonpos_iff.mpr (Or.inl ⟨hk.le, h⟩)

/-- Uniformly rescaling both trees' stored priorities by a positive factor
and the drawn masses by the same factor leaves the result of `sample`
unchanged: the scan lands on the same indices and the scale cancels in
the weight ratio `p_i / p_min`. -/
theorem sample_scale (s s' : Sampler) (k : ℝ) (n : ℕ) (masses : List ℝ)
    (hk : 0 < k) (hb : s'.beta = s.beta)
    (hst : s'.sumTree = s.sumTree.map (fun x => k * x))
    (hmt : s'.minTree = s.minTree.map (fun x => k * x)) :
    sample s' n (masses.map (fun m => k * m)) = sample s n masses := by
  rw [sample, sample, hst, hmt, hb]
  by_cases hn : n = 0
  · rw [if_pos hn, if_pos hn]
  · rw [if_neg hn, if_neg hn, treeSum_map_mul, treeMin_map_mul _ hk.le]
    by_cases hs1 : treeSum s.sumTree n ≤ 0
    · rw [if_pos ((nonpos_iff_of_pos_mul _ _ hk).mpr hs1), if_pos hs1]
    · rw [if_neg (fun hcon => hs1 ((nonpos_iff_of_pos_mul _ _ hk).mp hcon)), if_neg hs1]
      by_cases hs2 : treeMin s.minTree n ≤ 0
      · rw [if_pos ((nonpos_iff_of_pos_mul _ _ hk).mpr hs2), if_pos hs2]
      · rw [if_neg (fun hcon => hs2 ((nonpos_iff_of_pos_mul _ _ hk).mp hcon)), if_neg hs2]
        have hidx : (masses.map (fun m => k * m)).map
            (fun m => min (scanLowerBound (s.sumTree.map (fun x => k * x)) m) (n - 1)) =
            masses.map (fun m => min (scanLowerBound s.sumTree m) (n - 1)) := by
          rw [List.map_map]
          refine List.map_congr_left ?_
          intro m _
          simp only [Function.comp]
          rw [scanLowerBound_map_mul k hk]
        rw [hidx]
        congr 1
        refine congrArg _ ?_
        refine List.map_congr_left ?_
        intro i _
        rw [getD_map_mul, mul_div_mul_left _ _ hk.ne']

theorem applyUpdates_alpha : ∀ (us : List (ℕ × ℝ)) (s : Sampler),
    (applyUpdates s us).alpha = s.alpha
  | [], _ => rfl
  | _ :: rest, s => applyUpdates_alpha rest _

theorem applyUpdates_beta : ∀ (us : List (ℕ × ℝ)) (s : Sampler),
    (applyUpdates s us).beta = s.beta
  | [], _ => rfl
  | _ :: rest, s => applyUpdates_beta rest _

/-- Pushing a whole history of `update_priority` calls through a uniform
positive rescaling of the raw priorities: with `eps = 0` the stored leaves
of the rescaled run are exactly the `c ^ alpha`-multiples of the original
run's leaves. -/
theorem applyUpdates_scale (c : ℝ) (hc : 0 < c) (us : List (ℕ × ℝ)) :
    ∀ (s s' : Sampler), s'.alpha = s.alpha → s'.eps = 0 → s.eps = 0 →
    (∀ u ∈ us, 0 ≤ u.2) →
    s'.sumTree = s.sumTree.map (fun x => c ^ s.alpha * x) →
    s'.minTree = s.minTree.map (fun x => c ^ s.alpha * x) →
    ((applyUpdates s' (us.map (fun u => (u.1, c * u.2)))).sumTree =
      (applyUpdates s us).sumTree.map (fun x => c ^ s.alpha * x) ∧
     (applyUpdates s' (us.map (fun u => (u.1, c * u.2)))).minTree =
      (applyUpdates s us).minTree.map (fun x => c ^ s.alpha * x)) := by
  induction us with
  | nil =>
    intro s s' _ _ _ _ h1 h2
    exact ⟨h1, h2⟩
  | cons u rest ih =>
    intro s s' ha he' he hraw h1 h2
    have hu2 : 0 ≤ u.2 := hraw u (List.mem_cons_self u rest)
    have key : ((c * u.2) + s'.eps) ^ s'.alpha =
        c ^ s.alpha * ((u.2 + s.eps) ^ s.alpha) := by
      rw [he', he, ha, add_zero, add_zero, Real.mul_rpow hc.le hu2]
    have hstep1 : (updatePriority s' u.1 (c * u.2)).sumTree =
        (updatePriority s u.1 u.2).sumTree.map (fun x => c ^ s.alpha * x) := by
      simp only [updatePriority, h1, key, List.map_set]
    have hstep2 : (updatePriority s' u.1 (c * u.2)).minTree =
        (updatePriority s u.1 u.2).minTree.map (fun x => c ^ s.alpha * x) := by
      simp only [updatePriority, h2, key, List.map_set]
    have := ih (updatePriority s u.1 u.2) (updatePriority s' u.1 (c * u.2))
      ha he' he (fun v hv => hraw v (List.mem_cons_of_mem u hv)) hstep1 hstep2
    exact this

/-- C5 amended: the importance weights (and sampled indices) are invariant
under multiplying all raw priorities supplied to `update_priority` by a
positive constant `c` only in the `eps = 0` case, with the two runs
started from matching trees (the rescaled run's leaves the uniform
`c ^ alpha`-multiples of the original's, e.g. both all-zero) and with the
uniform draws scaled by the same factor `c ^ alpha` (the same underlying
uniform fractions of the total mass); with `eps > 0` the stored
priorities are not uniform multiples and the weights change. -/
theorem weights_invariant_rescaling_zero_eps (s s' : Sampler) (us : List (ℕ × ℝ))
    (c : ℝ) (n : ℕ) (masses : List ℝ)
    (hc : 0 < c) (ha : s'.alpha = s.alpha) (hb : s'.beta = s.beta)
    (he' : s'.eps = 0) (he : s.eps = 0)
    (hraw : ∀ u ∈ us, 0 ≤ u.2)
    (hst : s'.sumTree = s.sumTree.map (fun x => c ^ s.alpha * x))
    (hmt : s'.minTree = s.minTree.map (fun x => c ^ s.alpha * x)) :
    sample (applyUpdates s' (us.map (fun u => (u.1, c * u.2)))) n
        (masses.map (fun m => c ^ s.alpha * m)) =
      sample (applyUpdates s us) n masses := by
  obtain ⟨h1, h2⟩ := applyUpdates_scale c hc us s s' ha he' he hraw hst hmt
  refine sample_scale _ _ _ n masses (Real.rpow_pos_of_pos hc _) ?_ ?_ ?_
  · rw [applyUpdates_beta, applyUpdates_beta, hb]
  · exact h1
  · exact h2

/-- Witness for the amended C5: starting from all-zero two-slot trees with
`eps = 0`, `alpha = beta = 1`, raw priorities `1` and `3` against their
doubles, and the draw `3` against its `2 ^ 1`-multiple, the two `sample`
calls agree exactly. -/
theorem weights_invariant_rescaling_witness :
    (0 : ℝ) < 2 ∧
    sample (applyUpdates ⟨1, 1, 0, 1, [0, 0], [0, 0]⟩
        ([((0 : ℕ), (1 : ℝ)), (1, 3)].map (fun u => (u.1, 2 * u.2)))) 2
        ([3].map (fun m => 2 ^ (1 : ℝ) * m)) =
      sample (applyUpdates ⟨1, 1, 0, 1, [0, 0], [0, 0]⟩ [((0 : ℕ), (1 : ℝ)), (1, 3)]) 2 [3] := by
  refine ⟨by norm_num, ?_⟩
  exact weights_invariant_rescaling_zero_eps ⟨1, 1, 0, 1, [0, 0], [0, 0]⟩
    ⟨1, 1, 0, 1, [0, 0], [0, 0]⟩ [((0 : ℕ), (1 : ℝ)), (1, 3)] 2 2 [3]
    (by norm_num) rfl rfl rfl rfl
    (by intro u hu; simp at hu; rcases hu with h | h <;> simp [h])
    (by simp) (by simp)
